import Mathlib

/-!
Verification of the toolchain installer (`src/main.rs`).

Strings from the Rust side are modelled as `List Char`; Rust's byte-wise
lexicographic comparison of `&str` agrees with code-point order (UTF-8
preserves it), so a code-point comparison on `List Char` is faithful.
Filesystem state is modelled as a list of nodes (path components plus a
dir/file kind), processes and HTTP traffic as oracle inputs, and the
egui front-end as a small event-step system over the fields of
`LanguageState` that the installer logic reads and writes.
-/

set_option maxHeartbeats 1000000

/-! ### Version comparison (`is_version_compatible`, main.rs lines 59-79) -/

/-- One whitespace test, standing in for Rust `char::is_whitespace`
(the version strings compared here are ASCII). -/
def isWs (c : Char) : Bool := c.isWhitespace

/-- Rust `str::trim`: whitespace stripped from both ends. -/
def trimChars (s : List Char) : List Char :=
  ((s.dropWhile isWs).reverse.dropWhile isWs).reverse

/-- Rust `&str >= &str`: lexicographic order, `lexLe x y` means `x <= y`. -/
def lexLe : List Char → List Char → Bool
  | [], _ => true
  | _ :: _, [] => false
  | c :: cs, d :: ds => if c < d then true else if d < c then false else lexLe cs ds

/-- Rust `str::contains(pat)` for the two-character patterns `==` and `>=`. -/
def contains2 (a b : Char) : List Char → Bool
  | c :: d :: rest => (c == a && d == b) || contains2 a b (d :: rest)
  | _ => false

/-- Number of (possibly overlapping) occurrences of the two-character
pattern `a b`; used to state when a requirement holds the operator
unambiguously. -/
def occ2 (a b : Char) : List Char → Nat
  | c :: d :: rest => (if c == a && d == b then 1 else 0) + occ2 a b (d :: rest)
  | _ => 0

/-- Rust `str::split(pat)` for a two-character pattern: leftmost,
non-overlapping matches; always returns at least one segment. -/
def splitOn2 (a b : Char) : List Char → List (List Char)
  | c :: d :: rest =>
    if c == a && d == b then [] :: splitOn2 a b rest
    else
      match splitOn2 a b (d :: rest) with
      | [] => [[c]]
      | seg :: segs => (c :: seg) :: segs
  | l => [l]

/-- `is_version_compatible` (main.rs lines 59-79): `==` requires exact
equality with the trimmed right-hand side, else `>=` requires
lexicographic order against the trimmed right-hand side, else exact
equality with the whole requirement; a specifier that splits into other
than two parts falls through to `false`. -/
def is_version_compatible (installed_version required_specifier : List Char) : Bool :=
  if contains2 '=' '=' required_specifier then
    match splitOn2 '=' '=' required_specifier with
    | [_, rhs] => installed_version == trimChars rhs
    | _ => false
  else if contains2 '>' '=' required_specifier then
    match splitOn2 '>' '=' required_specifier with
    | [_, rhs] => lexLe (trimChars rhs) installed_version
    | _ => false
  else
    installed_version == required_specifier

lemma occ2_le_cons (a b x : Char) (l : List Char) : occ2 a b l ≤ occ2 a b (x :: l) := by
  cases l with
  | nil => simp [occ2]
  | cons y t =>
    show occ2 a b (y :: t) ≤ (if x == a && y == b then 1 else 0) + occ2 a b (y :: t)
    exact Nat.le_add_left _ _

lemma occ2_pat_pos (a b : Char) (x y : List Char) : 1 ≤ occ2 a b (x ++ a :: b :: y) := by
  induction x with
  | nil =>
    show 1 ≤ occ2 a b (a :: b :: y)
    simp [occ2]
  | cons c x' ih =>
    have h := occ2_le_cons a b c (x' ++ a :: b :: y)
    calc 1 ≤ occ2 a b (x' ++ a :: b :: y) := ih
      _ ≤ occ2 a b (c :: (x' ++ a :: b :: y)) := h
      _ = occ2 a b ((c :: x') ++ a :: b :: y) := by simp

lemma contains2_iff_occ2 (a b : Char) : ∀ l, contains2 a b l = true ↔ 0 < occ2 a b l := by
  intro l
  induction l with
  | nil => simp [contains2, occ2]
  | cons c t ih =>
    cases t with
    | nil => simp [contains2, occ2]
    | cons d rest =>
      by_cases hc : (c == a && d == b) = true
      · simp [contains2, occ2, hc]
      · have hc' : (c == a && d == b) = false := by
          cases h : (c == a && d == b) <;> simp_all
        simp [contains2, occ2, hc', ih]

lemma splitOn2_of_occ2_zero (a b : Char) : ∀ l, occ2 a b l = 0 → splitOn2 a b l = [l] := by
  intro l
  induction l with
  | nil => intro _; rfl
  | cons c t ih =>
    intro h
    cases t with
    | nil => rfl
    | cons d rest =>
      have hc : (c == a && d == b) = false := by
        cases hcc : (c == a && d == b) with
        | false => rfl
        | true => simp [occ2, hcc] at h
      have ht : occ2 a b (d :: rest) = 0 := by
        simpa [occ2, hc] using h
      simp [splitOn2, hc, ih ht]

lemma splitOn2_unique (a b : Char) :
    ∀ pre rhs, occ2 a b (pre ++ a :: b :: rhs) = 1 →
      splitOn2 a b (pre ++ a :: b :: rhs) = [pre, rhs] := by
  intro pre
  induction pre with
  | nil =>
    intro rhs h
    have h1 : occ2 a b (b :: rhs) = 0 := by
      simpa [occ2] using h
    have h0 : occ2 a b rhs = 0 :=
      Nat.le_zero.mp (h1 ▸ occ2_le_cons a b b rhs)
    simp [splitOn2, splitOn2_of_occ2_zero a b rhs h0]
  | cons p pre' ih =>
    intro rhs h
    obtain ⟨t, ts, hts⟩ : ∃ t ts, pre' ++ a :: b :: rhs = t :: ts := by
      cases pre' <;> exact ⟨_, _, rfl⟩
    have hform : (p :: pre') ++ a :: b :: rhs = p :: t :: ts := by
      simp [List.cons_append, hts]
    by_cases hc : (p == a && t == b) = true
    · exfalso
      have hpos : 1 ≤ occ2 a b (t :: ts) := by
        rw [← hts]
        exact occ2_pat_pos a b pre' rhs
      have : occ2 a b (p :: t :: ts) = 1 + occ2 a b (t :: ts) := by
        simp [occ2, hc]
      rw [hform, this] at h
      omega
    · have hc' : (p == a && t == b) = false := by
        cases hcc : (p == a && t == b) <;> simp_all
      have hocc : occ2 a b (pre' ++ a :: b :: rhs) = 1 := by
        have hstep : occ2 a b (p :: t :: ts) = occ2 a b (t :: ts) := by
          simp [occ2, hc']
        rw [hform, hstep] at h
        rw [hts]
        exact h
      have hrec := ih rhs hocc
      rw [hform]
      rw [hts] at hrec
      simp [splitOn2, hc', hrec]

lemma contains2_false_of_occ2_zero (a b : Char) (l : List Char)
    (h : occ2 a b l = 0) : contains2 a b l = false := by
  cases hc : contains2 a b l with
  | false => rfl
  | true =>
    have := (contains2_iff_occ2 a b l).mp hc
    omega

/-- Claim C1: `is_version_compatible(installed, requirement)` checks `==` first
(exact equality with the trimmed right operand), then `>=` (lexicographic
string order against the trimmed right operand, so `"1.10.0" >= "1.2.0"` is
false), and otherwise requires exact equality with the whole requirement;
with the four concrete examples from the specification. The operator cases
are stated for every requirement in which the operator occurs exactly once,
the only situation in which "the right-hand operand" is determined. -/
theorem c1_version_compatibility :
    (∀ installed pre rhs, occ2 '=' '=' (pre ++ '=' :: '=' :: rhs) = 1 →
      is_version_compatible installed (pre ++ '=' :: '=' :: rhs)
        = (installed == trimChars rhs))
    ∧ (∀ installed pre rhs, occ2 '=' '=' (pre ++ '>' :: '=' :: rhs) = 0 →
      occ2 '>' '=' (pre ++ '>' :: '=' :: rhs) = 1 →
      is_version_compatible installed (pre ++ '>' :: '=' :: rhs)
        = lexLe (trimChars rhs) installed)
    ∧ (∀ installed req, contains2 '=' '=' req = false → contains2 '>' '=' req = false →
      is_version_compatible installed req = (installed == req))
    ∧ is_version_compatible "3.12.4".data "==3.12.4".data = true
    ∧ is_version_compatible "3.12.4".data "==3.12.5".data = false
    ∧ is_version_compatible "3.12.4".data ">=3.12.0".data = true
    ∧ is_version_compatible "1.10.0".data ">=1.2.0".data = false := by
  refine ⟨?_, ?_, ?_, ?_, ?_, ?_, ?_⟩
  · intro installed pre rhs h
    have hc : contains2 '=' '=' (pre ++ '=' :: '=' :: rhs) = true :=
      (contains2_iff_occ2 _ _ _).mpr (by omega)
    have hs := splitOn2_unique '=' '=' pre rhs h
    simp [is_version_compatible, hc, hs]
  · intro installed pre rhs heq hge
    have hceq : contains2 '=' '=' (pre ++ '>' :: '=' :: rhs) = false :=
      contains2_false_of_occ2_zero _ _ _ heq
    have hcge : contains2 '>' '=' (pre ++ '>' :: '=' :: rhs) = true :=
      (contains2_iff_occ2 _ _ _).mpr (by omega)
    have hs := splitOn2_unique '>' '=' pre rhs hge
    simp [is_version_compatible, hceq, hcge, hs]
  · intro installed req h1 h2
    simp [is_version_compatible, h1, h2]
  · decide
  · decide
  · decide
  · decide

/-- Witness for C1: the `==` case applied at a concrete requirement. -/
theorem c1_version_compatibility_witness :
    is_version_compatible "3.12.4".data ([] ++ '=' :: '=' :: "3.12.4".data)
      = ("3.12.4".data == trimChars "3.12.4".data) :=
  c1_version_compatibility.1 "3.12.4".data [] "3.12.4".data (by decide)

/-! ### Go resolved version (main.rs lines 529-532, 540-544) -/

/-- Rust `str::trim_start_matches("go")`: strips every leading repetition
of `go`. -/
def trimStartMatchesGo : List Char → List Char
  | c :: d :: rest => if c = 'g' ∧ d = 'o' then trimStartMatchesGo rest else c :: d :: rest
  | s => s

/-- `pkg_name_go.split('.').next().unwrap_or("unknown")`: the text before
the first `.` of the package file name (the whole name if it has no `.`). -/
def firstDotSegment (s : List Char) : List Char := s.takeWhile (fun c => c != '.')

/-- `actual_version_go` (main.rs line 530): first dot-segment of the package
name with leading `go` stripped. -/
def goActualVersion (pkgName : List Char) : List Char :=
  trimStartMatchesGo (firstDotSegment pkgName)

/-- The last path component of the Go install directory,
`format!("{}-{}", vendor, actual_download_version)` with vendor `go`
(main.rs line 543). -/
def goVersionDirName (actual : List Char) : List Char := "go-".data ++ actual

lemma takeWhile_append_drop_at (p : Char → Bool) :
    ∀ (l : List Char) (c : Char) (r : List Char), (∀ x ∈ l, p x = true) → p c = false →
      (l ++ c :: r).takeWhile p = l := by
  intro l
  induction l with
  | nil => intro c r _ hc; simp [List.takeWhile, hc]
  | cons x t ih =>
    intro c r hall hc
    have hx : p x = true := hall x (by simp)
    have ht : ∀ y ∈ t, p y = true := fun y hy => hall y (by simp [hy])
    simp [List.takeWhile, hx, ih c r ht hc]

lemma trimStartMatchesGo_of_digits :
    ∀ (v : List Char), (∀ c ∈ v, c.isDigit = true) → trimStartMatchesGo v = v := by
  intro v hv
  match v with
  | [] => rfl
  | [c] => rfl
  | c :: d :: rest =>
    have hc : c.isDigit = true := hv c (by simp)
    have hne : ¬(c = 'g' ∧ d = 'o') := by
      rintro ⟨rfl, -⟩
      simp [Char.isDigit] at hc
    simp [trimStartMatchesGo, hne]

/-- Counterexample to claim C8: for the package selected on the downloads
page, `go1.22.3.linux-amd64.tar.gz`, the resolved version computed by the
code is `1`, not `1.22.3`, and the install directory is `go-1`, not
`go-1.22.3`. -/
theorem c8_go_resolved_version_counterexample :
    goActualVersion "go1.22.3.linux-amd64.tar.gz".data = "1".data
    ∧ goActualVersion "go1.22.3.linux-amd64.tar.gz".data ≠ "1.22.3".data
    ∧ goVersionDirName (goActualVersion "go1.22.3.linux-amd64.tar.gz".data) = "go-1".data
    ∧ goVersionDirName (goActualVersion "go1.22.3.linux-amd64.tar.gz".data) ≠ "go-1.22.3".data := by
  refine ⟨by decide, by decide, by decide, by decide⟩

/-- Claim C8 as amended: the version string that names the Go install path
(`<install_root>/go_versions/go-<resolved>`) is derived from the selected
package file name as the text before the first `.` with the leading `go`
stripped; for a package named `go<major>.<anything>` this is only the major
component `<major>`, not the full latest version text. -/
theorem c8_go_resolved_version_amended :
    ∀ (major rest : List Char), (∀ c ∈ major, c.isDigit = true) →
      goActualVersion ('g' :: 'o' :: (major ++ '.' :: rest)) = major
      ∧ goVersionDirName (goActualVersion ('g' :: 'o' :: (major ++ '.' :: rest)))
          = "go-".data ++ major := by
  intro major rest hd
  have hseg : firstDotSegment ('g' :: 'o' :: (major ++ '.' :: rest)) = 'g' :: 'o' :: major := by
    have hall : ∀ x ∈ 'g' :: 'o' :: major, (x != '.') = true := by
      intro x hx
      simp only [List.mem_cons] at hx
      rcases hx with rfl | rfl | hmem
      · decide
      · decide
      · have := hd x hmem
        have hne : x ≠ '.' := by
          intro he
          subst he
          simp [Char.isDigit] at this
        simp [hne]
    have hdot : (('.' : Char) != '.') = false := by decide
    have := takeWhile_append_drop_at (fun c => c != '.') ('g' :: 'o' :: major) '.' rest hall hdot
    simpa [firstDotSegment, List.cons_append] using this
  have htrim : trimStartMatchesGo ('g' :: 'o' :: major) = trimStartMatchesGo major := by
    cases major with
    | nil => rfl
    | cons c t => simp [trimStartMatchesGo]
  constructor
  · unfold goActualVersion
    rw [hseg, htrim, trimStartMatchesGo_of_digits major hd]
  · unfold goActualVersion goVersionDirName
    rw [hseg, htrim, trimStartMatchesGo_of_digits major hd]

/-- Witness for amended C8 at the concrete latest package. -/
theorem c8_go_resolved_version_amended_witness :
    goActualVersion ('g' :: 'o' :: ("1".data ++ '.' :: "22.3.linux-amd64.tar.gz".data)) = "1".data
    ∧ goVersionDirName (goActualVersion ('g' :: 'o' :: ("1".data ++ '.' :: "22.3.linux-amd64.tar.gz".data)))
        = "go-".data ++ "1".data :=
  c8_go_resolved_version_amended "1".data "22.3.linux-amd64.tar.gz".data (by decide)

/-! ### First network-relevant step of version/URL resolution
(the vendor `match` in `run_installation_logic`, main.rs lines 230-537) -/

/-- What the vendor arm of `run_installation_logic` does first: fail before
any network request, issue an HTTP GET to a URL, or complete resolution
without any network traffic. -/
inductive ResolveStep
  | failNow (msg : List Char)
  | httpGet (url : List Char)
  | noNetwork
deriving DecidableEq

/-- Azul/Temurin architecture renaming (main.rs lines 233-237 and 321-325). -/
def javaArch (archRaw : List Char) : List Char :=
  if archRaw == "x86_64".data then "x64".data
  else if archRaw == "aarch64".data then "aarch64".data
  else archRaw

/-- Azul metadata API URL (main.rs lines 245-255). -/
def azulApiUrl (latest : Bool) (version osName arch : List Char) : List Char :=
  if latest then
    "https://api.azul.com/metadata/v1/zulu/packages?latest=true&availability_types=ca&os=".data
      ++ osName ++ "&arch=".data ++ arch ++ "&package_type=jdk".data
  else
    "https://api.azul.com/metadata/v1/zulu/packages?java_version=".data ++ version
      ++ "&os=".data ++ osName ++ "&arch=".data ++ arch
      ++ "&package_type=jdk&latest=true&availability_types=ca".data

/-- Temurin (Adoptium) API URL (main.rs lines 333-343). -/
def temurinApiUrl (latest : Bool) (version osName arch : List Char) : List Char :=
  if latest then
    "https://api.adoptium.net/v3/assets/latest/all/hotspot?os=".data ++ osName
      ++ "&architecture=".data ++ arch ++ "&image_type=jdk".data
  else
    "https://api.adoptium.net/v3/assets/latest/".data ++ version ++ "/hotspot?os=".data
      ++ osName ++ "&architecture=".data ++ arch ++ "&image_type=jdk".data

/-- The error returned for `openjdk` with `install_latest` set
(main.rs line 358). -/
def openjdkLatestMsg : List Char :=
  "Latest version not supported for OpenJDK. Please specify a version number.".data

/-- An apostrophe, spelled by code point. -/
def apos : Char := Char.ofNat 39

/-- The error returned for the C/C++ vendor on a non-Windows OS
(main.rs line 428). -/
def cCppNonWindowsMsg : List Char :=
  "C/C++ (MinGW-w64) installation via this installer is only supported on Windows. For Linux/macOS, please use your system".data
    ++ [apos]
    ++ "s package manager (e.g., for GCC/Clang: `sudo apt install build-essential` on Debian/Ubuntu, `xcode-select --install` / `brew install gcc` on macOS).".data

/-- First network-relevant action of each vendor arm of the resolution
`match` (main.rs lines 230-537): `azul`/`temurin` immediately query their
metadata APIs (with or without `latest=true`); `openjdk` refuses `latest`
outright before any request and otherwise fetches the release page;
`python` scrapes the download listing only when `latest` is requested;
`c_cpp` fails on non-Windows and otherwise resolves a hard-coded URL
offline; `rust` resolves offline; `nodejs` and `go` scrape their listing
pages; unknown vendors fail. -/
def firstResolveStep (vendor version : List Char) (latest : Bool)
    (osName archRaw : List Char) : ResolveStep :=
  if vendor == "azul".data then
    ResolveStep.httpGet (azulApiUrl latest version osName (javaArch archRaw))
  else if vendor == "temurin".data then
    ResolveStep.httpGet (temurinApiUrl latest version osName (javaArch archRaw))
  else if vendor == "openjdk".data then
    if latest then ResolveStep.failNow openjdkLatestMsg
    else ResolveStep.httpGet ("https://jdk.java.net/".data ++ version)
  else if vendor == "python".data then
    if latest then ResolveStep.httpGet "https://www.python.org/downloads/".data
    else if osName == "windows".data || osName == "darwin".data || osName == "linux".data then
      ResolveStep.noNetwork
    else
      ResolveStep.failNow ("Python installation not supported for OS: ".data ++ osName)
  else if vendor == "c_cpp".data then
    if osName == "windows".data then ResolveStep.noNetwork
    else ResolveStep.failNow cCppNonWindowsMsg
  else if vendor == "rust".data then
    if osName == "windows".data || osName == "darwin".data || osName == "linux".data then
      ResolveStep.noNetwork
    else
      ResolveStep.failNow ("Rust installation not supported for OS: ".data ++ osName)
  else if vendor == "nodejs".data then
    ResolveStep.httpGet "https://nodejs.org/dist/latest-lts/".data
  else if vendor == "go".data then
    ResolveStep.httpGet "https://go.dev/dl/".data
  else
    ResolveStep.failNow ("Unsupported vendor: ".data ++ vendor)

/-- Claim C9: an `openjdk` run requested with `install_latest = true` fails
immediately — before any network request — with the fixed message that
latest is not supported and a version number must be given; a non-latest
`openjdk` run and the other two Java vendors (with or without latest)
proceed to a network query instead. -/
theorem c9_openjdk_latest_unsupported :
    ∀ (version osName archRaw : List Char),
      firstResolveStep "openjdk".data version true osName archRaw
        = ResolveStep.failNow openjdkLatestMsg
      ∧ (∃ url, firstResolveStep "openjdk".data version false osName archRaw
          = ResolveStep.httpGet url)
      ∧ (∀ latest, ∃ url, firstResolveStep "azul".data version latest osName archRaw
          = ResolveStep.httpGet url)
      ∧ (∀ latest, ∃ url, firstResolveStep "temurin".data version latest osName archRaw
          = ResolveStep.httpGet url) := by
  intro version osName archRaw
  exact ⟨rfl, ⟨_, rfl⟩, fun _ => ⟨_, rfl⟩, fun _ => ⟨_, rfl⟩⟩

/-- Witness for C9 at a concrete platform. -/
theorem c9_openjdk_latest_unsupported_witness :
    firstResolveStep "openjdk".data "21".data true "linux".data "x86_64".data
      = ResolveStep.failNow openjdkLatestMsg :=
  (c9_openjdk_latest_unsupported "21".data "linux".data "x86_64".data).1

/-! ### Filesystem model and archive extraction
(main.rs lines 732-858: zip/tar entry loops, wrapper detection, flattening) -/

/-- A path, as components relative to the installation target directory. -/
abbrev FsPath := List String

/-- `leadsB p q`: the components of `p` are an initial segment of `q`
(the file named by `q` lives at or below the directory named by `p`). -/
def leadsB : FsPath → FsPath → Bool
  | [], _ => true
  | _ :: _, [] => false
  | a :: as, b :: bs => a == b && leadsB as bs

/-- Kind of a filesystem node. -/
inductive FKind
  | dir
  | file
deriving DecidableEq

/-- One filesystem node below the target directory. -/
structure FNode where
  path : FsPath
  kind : FKind
deriving DecidableEq

/-- The target directory's contents: the target itself always exists and is
not tracked; every other node is listed with its kind. -/
abbrev FS := List FNode

def hasPath (fs : FS) (p : FsPath) : Bool := fs.any (fun n => n.path == p)

def isDirAt (fs : FS) (p : FsPath) : Bool :=
  fs.any (fun n => n.path == p && n.kind == FKind.dir)

/-- Create a node unless a node with that path already exists
(`fs::create_dir_all` succeeds on an existing directory; `File::create`
truncates an existing file in place). -/
def addNode (fs : FS) (p : FsPath) (k : FKind) : FS :=
  if hasPath fs p then fs else fs ++ [⟨p, k⟩]

/-- All nonempty initial segments of a path, shortest first. -/
def ancestorsOf (p : FsPath) : List FsPath :=
  (List.range p.length).map (fun i => p.take (i + 1))

/-- `fs::create_dir_all`: the directory and all its parents. -/
def mkdirAll (fs : FS) (p : FsPath) : FS :=
  (ancestorsOf p).foldl (fun f q => addNode f q FKind.dir) fs

/-- `fs::create_dir_all(out_path.parent())` followed by `File::create(out_path)`
(main.rs lines 761-765 and 812-816). -/
def createFileAt (fs : FS) (p : FsPath) : FS :=
  addNode (mkdirAll fs p.dropLast) p FKind.file

/-- One archive entry: its stored path and whether it is a directory entry. -/
structure En where
  path : FsPath
  isDir : Bool
deriving DecidableEq

/-- Effect of extracting one entry under the target directory: the stored
path is joined to the target verbatim (main.rs lines 756 and 807). -/
def entryApply (fs : FS) (e : En) : FS :=
  if e.isDir then mkdirAll fs e.path else createFileAt fs e.path

/-- Wrapper-directory tracking (main.rs lines 750-754 and 801-805): the
first directory entry's first path component, once set never changed. -/
def topUpdate (top : Option String) (e : En) : Option String :=
  match top with
  | some t => some t
  | none => if e.isDir then e.path.head? else none

/-- Result of the extraction loop: cancelled mid-way (the partially written
target contents remain on disk), or finished with the final contents and
the detected wrapper directory name. -/
inductive ExtOutcome
  | cancelled (partialFs : FS)
  | done (fs : FS) (top : Option String)

/-- The per-entry extraction loop, zip and tar alike (main.rs lines 739-772
and 790-824): the cancellation flag is polled once before each entry is
written; `cancel i` is the value the shared flag is observed to hold at the
i-th poll. -/
def extractLoop (cancel : Nat → Bool) : List En → Nat → Option String → FS → ExtOutcome
  | [], _, top, fs => ExtOutcome.done fs top
  | e :: rest, i, top, fs =>
    if cancel i then ExtOutcome.cancelled fs
    else extractLoop cancel rest (i + 1) (topUpdate top e) (entryApply fs e)

/-- The contents produced by an uncancelled extraction. -/
def extractFS (entries : List En) (fs : FS) : FS := entries.foldl entryApply fs

/-- The wrapper name detected by an uncancelled extraction. -/
def extractTop (entries : List En) (top : Option String) : Option String :=
  entries.foldl topUpdate top

/-- `fs::read_dir(target/<d>)`: the names of the immediate children of the
wrapper directory. -/
def childNames (fs : FS) (d : String) : List String :=
  fs.filterMap (fun n =>
    match n.path with
    | [a, b] => if a == d then some b else none
    | _ => none)

/-- `fs::rename(old, new)`: the subtree rooted at `old` is rebased onto
`new` (main.rs line 849). -/
def renameTree (fs : FS) (oldP newP : FsPath) : FS :=
  fs.map (fun n =>
    if leadsB oldP n.path then ⟨newP ++ n.path.drop oldP.length, n.kind⟩ else n)

/-- `fs::remove_dir(p)`: fails unless the directory is empty
(main.rs line 852). -/
def removeDirStrict (fs : FS) (p : FsPath) : Except (List Char) FS :=
  if fs.any (fun n => leadsB p n.path && n.path != p) then
    Except.error "directory not empty".data
  else
    Except.ok (fs.filter (fun n => n.path != p))

/-- The move loop of the flattening step (main.rs lines 845-850): each
immediate child of the wrapper is renamed up one level, in listing order. -/
def moveChildrenUp (fs : FS) (d : String) : FS :=
  (childNames fs d).foldl (fun f c => renameTree f [d, c] [c]) fs

/-- Post-extraction normalization (main.rs lines 834-857): if a wrapper
directory was detected and exists as a directory under the target, move its
contents up one level and remove the then-empty wrapper. -/
def normalizeTop (fs : FS) (top : Option String) : Except (List Char) FS :=
  match top with
  | none => Except.ok fs
  | some d =>
    if hasPath fs [d] && isDirAt fs [d] then
      removeDirStrict (moveChildrenUp fs d) [d]
    else
      Except.ok fs

/-! ### Download loop and post-resolution pipeline
(main.rs lines 546-618 idempotency check, 626-660 download, 732-858 extraction) -/

/-- One read from the HTTP response stream: `none` models a read error,
`some bytes` a successful read delivering those bytes (at most the chunk
buffer size); an exhausted list models the read that returns `Ok(0)`. -/
abbrev ReadEv := Option (List Nat)

/-- The chunk buffer allocated per read, `vec![0; 8192]` (main.rs line 642). -/
def downloadChunkCapacity : Nat := 8192

/-- Result of the download loop: cancelled (the accumulated buffer is
dropped), a stream read error, or the complete body. -/
inductive DlOutcome
  | cancelled
  | readErr
  | done (buf : List Nat)
deriving DecidableEq

/-- The chunked download loop (main.rs lines 634-660): the cancellation
flag is polled at the top of every iteration, before each chunk read;
`cancel i` is the value observed at the i-th poll. A read of zero bytes
ends the loop with the buffer accumulated so far. -/
def downloadLoop (cancel : Nat → Bool) : List ReadEv → Nat → List Nat → DlOutcome
  | [], i, buf => if cancel i then DlOutcome.cancelled else DlOutcome.done buf
  | none :: _, i, _ => if cancel i then DlOutcome.cancelled else DlOutcome.readErr
  | some b :: rest, i, buf =>
    if cancel i then DlOutcome.cancelled
    else if b.isEmpty then DlOutcome.done buf
    else downloadLoop cancel rest (i + 1) (buf ++ b.take downloadChunkCapacity)

/-- The idempotency decision (main.rs lines 546-618): installed only when
the expected path exists, the version-query executable inside it exists,
running it succeeded (`probe` is the parsed version it printed, `none`
models an execution failure), and the parsed version is compatible with the
resolution target — `actual_download_version` when latest was requested,
the requested version otherwise. -/
def alreadyInstalled (pathExists exeExists : Bool) (probe : Option (List Char))
    (latest : Bool) (actualVer requestedVer : List Char) : Bool :=
  pathExists && exeExists &&
    (match probe with
     | some v => is_version_compatible v (if latest then actualVer else requestedVer)
     | none => false)

/-- Terminal failure of the post-resolution phase. -/
inductive RunErr
  | cancelledErr
  | downloadReadErr
  | extractionErr (msg : List Char)

/-- Observable effects of the post-resolution phase of one run. -/
structure PhaseResult where
  shortCircuit : Bool
  downloadAttempted : Bool
  extractionRan : Bool
  bufferKept : Option (List Nat)
  fsOut : FS
  outcome : Except RunErr Unit

/-- The post-resolution phase of `run_installation_logic` for an
archive-extracting vendor (main.rs lines 546-858): idempotency check with
possible short-circuit success, then the chunked download, then the
per-entry extraction and normalization. `cancelD`/`cancelE` are the values
the shared cancellation flag is observed to hold at the download-loop and
extraction-loop polls. -/
def installPostResolve (pathExists exeExists : Bool) (probe : Option (List Char))
    (latest : Bool) (actualVer requestedVer : List Char)
    (cancelD cancelE : Nat → Bool) (evs : List ReadEv) (entries : List En) : PhaseResult :=
  if alreadyInstalled pathExists exeExists probe latest actualVer requestedVer then
    ⟨true, false, false, none, [], Except.ok ()⟩
  else
    match downloadLoop cancelD evs 0 [] with
    | DlOutcome.cancelled => ⟨false, true, false, none, [], Except.error RunErr.cancelledErr⟩
    | DlOutcome.readErr => ⟨false, true, false, none, [], Except.error RunErr.downloadReadErr⟩
    | DlOutcome.done buf =>
      match extractLoop cancelE entries 0 none [] with
      | ExtOutcome.cancelled pfs =>
        ⟨false, true, true, some buf, pfs, Except.error RunErr.cancelledErr⟩
      | ExtOutcome.done fs top =>
        match normalizeTop fs top with
        | Except.error m => ⟨false, true, true, some buf, fs, Except.error (RunErr.extractionErr m)⟩
        | Except.ok fs2 => ⟨false, true, true, some buf, fs2, Except.ok ()⟩

lemma downloadLoop_cancel_now (cancel : Nat → Bool) (evs : List ReadEv) (i : Nat)
    (buf : List Nat) (h : cancel i = true) :
    downloadLoop cancel evs i buf = DlOutcome.cancelled := by
  match evs with
  | [] => simp [downloadLoop, h]
  | none :: rest => simp [downloadLoop, h]
  | some b :: rest => simp [downloadLoop, h]

lemma extractLoop_cancel_now (cancel : Nat → Bool) (e : En) (rest : List En) (i : Nat)
    (top : Option String) (fs : FS) (h : cancel i = true) :
    extractLoop cancel (e :: rest) i top fs = ExtOutcome.cancelled fs := by
  simp [extractLoop, h]

/-- Claim C2: the idempotency check proceeds to install when the expected
path is missing, when the version-query executable inside it is missing, or
when executing it fails (an execution failure is never a hard error — the
run continues exactly as for a missing installation); and when the probe
succeeds with a version compatible with the resolution target, the run
short-circuits with success, performing no download and no extraction. -/
theorem c2_idempotency_check :
    (∀ ee probe latest av rv cD cE evs entries,
      (installPostResolve false ee probe latest av rv cD cE evs entries).shortCircuit = false)
    ∧ (∀ pe probe latest av rv cD cE evs entries,
      (installPostResolve pe false probe latest av rv cD cE evs entries).shortCircuit = false)
    ∧ (∀ pe ee latest av rv cD cE evs entries,
      installPostResolve pe ee none latest av rv cD cE evs entries
        = installPostResolve false false none latest av rv cD cE evs entries)
    ∧ (∀ pe ee v latest av rv cD cE evs entries,
      pe = true → ee = true →
      is_version_compatible v (if latest then av else rv) = true →
      installPostResolve pe ee (some v) latest av rv cD cE evs entries
        = ⟨true, false, false, none, [], Except.ok ()⟩) := by
  refine ⟨?_, ?_, ?_, ?_⟩
  · intro ee probe latest av rv cD cE evs entries
    have h : alreadyInstalled false ee probe latest av rv = false := by
      simp [alreadyInstalled]
    unfold installPostResolve
    rw [h]
    simp only [Bool.false_eq_true, if_false]
    split
    · rfl
    · rfl
    · split
      · rfl
      · split
        · rfl
        · rfl
  · intro pe probe latest av rv cD cE evs entries
    have h : alreadyInstalled pe false probe latest av rv = false := by
      simp [alreadyInstalled]
    unfold installPostResolve
    rw [h]
    simp only [Bool.false_eq_true, if_false]
    split
    · rfl
    · rfl
    · split
      · rfl
      · split
        · rfl
        · rfl
  · intro pe ee latest av rv cD cE evs entries
    have h1 : alreadyInstalled pe ee none latest av rv = false := by
      simp [alreadyInstalled]
    have h2 : alreadyInstalled false false none latest av rv = false := by
      simp [alreadyInstalled]
    unfold installPostResolve
    rw [h1, h2]
  · intro pe ee v latest av rv cD cE evs entries hpe hee hcompat
    subst hpe
    subst hee
    have h : alreadyInstalled true true (some v) latest av rv = true := by
      simp [alreadyInstalled, hcompat]
    unfold installPostResolve
    rw [h]
    rfl

/-- Witness for C2: a compatible probe short-circuits at concrete inputs. -/
theorem c2_idempotency_check_witness :
    is_version_compatible "3.12.4".data (if false then "x".data else "3.12.4".data) = true
    ∧ installPostResolve true true (some "3.12.4".data) false "x".data "3.12.4".data
        (fun _ => false) (fun _ => false) [] []
      = ⟨true, false, false, none, [], Except.ok ()⟩ :=
  ⟨by decide,
   c2_idempotency_check.2.2.2 true true "3.12.4".data false "x".data "3.12.4".data
     (fun _ => false) (fun _ => false) [] [] rfl rfl (by decide)⟩

/-- Claim C3: the chunk buffer is fixed at 8 KiB; the flag is polled before
every chunk read and an observed `true` aborts the loop at once with the
cancelled outcome; and a run whose download loop is cancelled terminates
with the cancelled error, keeps none of the bytes read, writes nothing
under the target directory, and never runs the extraction step. -/
theorem c3_download_cancellation :
    downloadChunkCapacity = 8 * 1024
    ∧ (∀ cancel evs i buf, cancel i = true →
        downloadLoop cancel evs i buf = DlOutcome.cancelled)
    ∧ (∀ pe ee probe latest av rv cD cE evs entries,
        alreadyInstalled pe ee probe latest av rv = false →
        downloadLoop cD evs 0 [] = DlOutcome.cancelled →
        installPostResolve pe ee probe latest av rv cD cE evs entries
          = ⟨false, true, false, none, [], Except.error RunErr.cancelledErr⟩) := by
  refine ⟨rfl, downloadLoop_cancel_now, ?_⟩
  intro pe ee probe latest av rv cD cE evs entries hni hdl
  unfold installPostResolve
  rw [hni, hdl]
  rfl

/-- Witness for C3: a flag observed set at the very first poll cancels a
concrete run. -/
theorem c3_download_cancellation_witness :
    alreadyInstalled false false none false [] [] = false
    ∧ downloadLoop (fun _ => true) [some [1, 2, 3]] 0 [] = DlOutcome.cancelled
    ∧ installPostResolve false false none false [] [] (fun _ => true) (fun _ => false)
        [some [1, 2, 3]] []
      = ⟨false, true, false, none, [], Except.error RunErr.cancelledErr⟩ :=
  ⟨rfl, c3_download_cancellation.2.1 (fun _ => true) [some [1, 2, 3]] 0 [] rfl,
   c3_download_cancellation.2.2 false false none false [] [] (fun _ => true) (fun _ => false)
     [some [1, 2, 3]] [] rfl
     (c3_download_cancellation.2.1 (fun _ => true) [some [1, 2, 3]] 0 [] rfl)⟩

/-! ### Basic facts about the filesystem model -/

lemma hasPath_iff (fs : FS) (p : FsPath) : hasPath fs p = true ↔ ∃ n ∈ fs, n.path = p := by
  simp [hasPath, List.any_eq_true, beq_iff_eq]

lemma isDirAt_iff (fs : FS) (p : FsPath) :
    isDirAt fs p = true ↔ ∃ n ∈ fs, n.path = p ∧ n.kind = FKind.dir := by
  simp [isDirAt, List.any_eq_true, beq_iff_eq, and_assoc]

lemma leadsB_single_iff (w : String) (p : FsPath) :
    leadsB [w] p = true ↔ ∃ r, p = w :: r := by
  cases p with
  | nil => simp [leadsB]
  | cons b bs =>
    simp [leadsB, beq_iff_eq]
    constructor
    · intro h; exact h.symm
    · intro h; exact h.symm

lemma leadsB_pair_iff (w c : String) (p : FsPath) :
    leadsB [w, c] p = true ↔ ∃ q, p = w :: c :: q := by
  cases p with
  | nil => simp [leadsB]
  | cons b bs =>
    cases bs with
    | nil =>
      simp [leadsB]
    | cons b' bs' =>
      simp [leadsB, beq_iff_eq]
      constructor
      · rintro ⟨h1, h2⟩; exact ⟨h1.symm, h2.symm⟩
      · rintro ⟨h1, h2⟩; exact ⟨h1.symm, h2.symm⟩

lemma hasPath_addNode_self (fs : FS) (p : FsPath) (k : FKind) :
    hasPath (addNode fs p k) p = true := by
  unfold addNode
  by_cases h : hasPath fs p = true
  · simp [h]
  · have h' : hasPath fs p = false := by
      cases hh : hasPath fs p
      · rfl
      · exact absurd hh h
    rw [h']
    simp only [Bool.false_eq_true, if_false]
    rw [hasPath_iff]
    exact ⟨⟨p, k⟩, by simp, rfl⟩

lemma hasPath_addNode_mono (fs : FS) (p q : FsPath) (k : FKind)
    (h : hasPath fs q = true) : hasPath (addNode fs p k) q = true := by
  unfold addNode
  by_cases hc : hasPath fs p = true
  · simp [hc, h]
  · have hc' : hasPath fs p = false := by
      cases hh : hasPath fs p
      · rfl
      · exact absurd hh hc
    rw [hc']
    simp only [Bool.false_eq_true, if_false]
    rw [hasPath_iff] at h ⊢
    obtain ⟨n, hn, hp⟩ := h
    exact ⟨n, by simp [hn], hp⟩

lemma mem_addNode (fs : FS) (p : FsPath) (k : FKind) (n : FNode)
    (h : n ∈ addNode fs p k) : n ∈ fs ∨ n = ⟨p, k⟩ := by
  unfold addNode at h
  by_cases hc : hasPath fs p = true
  · rw [hc] at h
    simp at h
    exact Or.inl h
  · have hc' : hasPath fs p = false := by
      cases hh : hasPath fs p
      · rfl
      · exact absurd hh hc
    rw [hc'] at h
    simp at h
    exact h

lemma hasPath_foldlDirs_mono :
    ∀ (l : List FsPath) (fs : FS) (q : FsPath), hasPath fs q = true →
      hasPath (l.foldl (fun f r => addNode f r FKind.dir) fs) q = true := by
  intro l
  induction l with
  | nil => intro fs q h; exact h
  | cons r l' ih =>
    intro fs q h
    exact ih (addNode fs r FKind.dir) q (hasPath_addNode_mono fs r q FKind.dir h)

lemma hasPath_foldlDirs_of_mem :
    ∀ (l : List FsPath) (fs : FS) (q : FsPath), q ∈ l →
      hasPath (l.foldl (fun f r => addNode f r FKind.dir) fs) q = true := by
  intro l
  induction l with
  | nil => intro fs q h; simp at h
  | cons r l' ih =>
    intro fs q h
    rcases List.mem_cons.mp h with rfl | hmem
    · exact hasPath_foldlDirs_mono l' (addNode fs q FKind.dir) q
        (hasPath_addNode_self fs q FKind.dir)
    · exact ih (addNode fs r FKind.dir) q hmem

lemma mem_foldlDirs :
    ∀ (l : List FsPath) (fs : FS) (n : FNode),
      n ∈ l.foldl (fun f r => addNode f r FKind.dir) fs →
      n ∈ fs ∨ (n.kind = FKind.dir ∧ n.path ∈ l) := by
  intro l
  induction l with
  | nil => intro fs n h; exact Or.inl h
  | cons r l' ih =>
    intro fs n h
    rcases ih (addNode fs r FKind.dir) n h with h1 | h2
    · rcases mem_addNode fs r FKind.dir n h1 with h3 | h3
      · exact Or.inl h3
      · subst h3
        exact Or.inr ⟨rfl, by simp⟩
    · exact Or.inr ⟨h2.1, by simp [h2.2]⟩

lemma ancestorsOf_mem (p q : FsPath) :
    q ∈ ancestorsOf p ↔ ∃ i, i < p.length ∧ q = p.take (i + 1) := by
  simp [ancestorsOf, List.mem_map, List.mem_range, eq_comm]

lemma self_mem_ancestorsOf (p : FsPath) (h : p ≠ []) : p ∈ ancestorsOf p := by
  rw [ancestorsOf_mem]
  have hl : 0 < p.length := List.length_pos.mpr h
  exact ⟨p.length - 1, by omega, by rw [show p.length - 1 + 1 = p.length by omega, List.take_length]⟩

lemma hasPath_mkdirAll_mono (fs : FS) (p q : FsPath) (h : hasPath fs q = true) :
    hasPath (mkdirAll fs p) q = true :=
  hasPath_foldlDirs_mono (ancestorsOf p) fs q h

lemma hasPath_mkdirAll_of_ancestor (fs : FS) (p q : FsPath) (h : q ∈ ancestorsOf p) :
    hasPath (mkdirAll fs p) q = true :=
  hasPath_foldlDirs_of_mem (ancestorsOf p) fs q h

lemma mem_mkdirAll (fs : FS) (p : FsPath) (n : FNode) (h : n ∈ mkdirAll fs p) :
    n ∈ fs ∨ (n.kind = FKind.dir ∧ n.path ∈ ancestorsOf p) :=
  mem_foldlDirs (ancestorsOf p) fs n h

lemma hasPath_createFileAt_self (fs : FS) (p : FsPath) :
    hasPath (createFileAt fs p) p = true :=
  hasPath_addNode_self _ p FKind.file

lemma hasPath_createFileAt_mono (fs : FS) (p q : FsPath) (h : hasPath fs q = true) :
    hasPath (createFileAt fs p) q = true :=
  hasPath_addNode_mono _ p q FKind.file (hasPath_mkdirAll_mono fs p.dropLast q h)

lemma hasPath_createFileAt_of_ancestor (fs : FS) (p q : FsPath)
    (h : q ∈ ancestorsOf p.dropLast) : hasPath (createFileAt fs p) q = true :=
  hasPath_addNode_mono _ p q FKind.file (hasPath_mkdirAll_of_ancestor fs p.dropLast q h)

lemma mem_createFileAt (fs : FS) (p : FsPath) (n : FNode) (h : n ∈ createFileAt fs p) :
    n ∈ fs ∨ (n.kind = FKind.dir ∧ n.path ∈ ancestorsOf p.dropLast) ∨ n = ⟨p, FKind.file⟩ := by
  rcases mem_addNode _ p FKind.file n h with h1 | h1
  · rcases mem_mkdirAll fs p.dropLast n h1 with h2 | h2
    · exact Or.inl h2
    · exact Or.inr (Or.inl h2)
  · exact Or.inr (Or.inr h1)

/-! ### Facts about the extraction fold -/

/-- The paths an entry's extraction guarantees to exist afterwards. -/
def entryCreated (e : En) : List FsPath :=
  if e.isDir then ancestorsOf e.path else ancestorsOf e.path.dropLast ++ [e.path]

lemma hasPath_entryApply_mono (fs : FS) (e : En) (q : FsPath) (h : hasPath fs q = true) :
    hasPath (entryApply fs e) q = true := by
  unfold entryApply
  by_cases hd : e.isDir = true
  · simp only [hd, if_true]
    exact hasPath_mkdirAll_mono fs e.path q h
  · have hd' : e.isDir = false := by
      cases hh : e.isDir
      · rfl
      · exact absurd hh hd
    simp only [hd', Bool.false_eq_true, if_false]
    exact hasPath_createFileAt_mono fs e.path q h

lemma hasPath_entryApply_created (fs : FS) (e : En) (q : FsPath) (h : q ∈ entryCreated e) :
    hasPath (entryApply fs e) q = true := by
  unfold entryApply entryCreated at *
  by_cases hd : e.isDir = true
  · simp only [hd, if_true] at h ⊢
    exact hasPath_mkdirAll_of_ancestor fs e.path q h
  · have hd' : e.isDir = false := by
      cases hh : e.isDir
      · rfl
      · exact absurd hh hd
    simp only [hd', Bool.false_eq_true, if_false] at h ⊢
    rcases List.mem_append.mp h with h1 | h1
    · exact hasPath_createFileAt_of_ancestor fs e.path q h1
    · have : q = e.path := by simpa using h1
      subst this
      exact hasPath_createFileAt_self fs e.path

lemma hasPath_extractFS_mono :
    ∀ (es : List En) (fs : FS) (q : FsPath), hasPath fs q = true →
      hasPath (extractFS es fs) q = true := by
  intro es
  induction es with
  | nil => intro fs q h; exact h
  | cons e es' ih =>
    intro fs q h
    exact ih (entryApply fs e) q (hasPath_entryApply_mono fs e q h)

lemma hasPath_extractFS_created :
    ∀ (es : List En) (fs : FS) (e : En) (q : FsPath), e ∈ es → q ∈ entryCreated e →
      hasPath (extractFS es fs) q = true := by
  intro es
  induction es with
  | nil => intro fs e q h; simp at h
  | cons e0 es' ih =>
    intro fs e q hmem hq
    rcases List.mem_cons.mp hmem with rfl | hmem'
    · exact hasPath_extractFS_mono es' (entryApply fs e) q (hasPath_entryApply_created fs e q hq)
    · exact ih (entryApply fs e0) e q hmem' hq

lemma mem_extractFS :
    ∀ (es : List En) (fs : FS) (n : FNode), n ∈ extractFS es fs →
      n ∈ fs
      ∨ (n.kind = FKind.dir ∧ ∃ e ∈ es, ∃ k, 0 < k ∧ k ≤ e.path.length ∧ n.path = e.path.take k)
      ∨ (n.kind = FKind.file ∧ ∃ e ∈ es, e.isDir = false ∧ n.path = e.path) := by
  intro es
  induction es with
  | nil => intro fs n h; exact Or.inl h
  | cons e0 es' ih =>
    intro fs n h
    rcases ih (entryApply fs e0) n h with h1 | h1 | h1
    · unfold entryApply at h1
      by_cases hd : e0.isDir = true
      · simp only [hd, if_true] at h1
        rcases mem_mkdirAll fs e0.path n h1 with h2 | h2
        · exact Or.inl h2
        · obtain ⟨i, hi, hq⟩ := (ancestorsOf_mem e0.path n.path).mp h2.2
          exact Or.inr (Or.inl ⟨h2.1, e0, by simp, i + 1, by omega, by omega, hq⟩)
      · have hd' : e0.isDir = false := by
          cases hh : e0.isDir
          · rfl
          · exact absurd hh hd
        simp only [hd', Bool.false_eq_true, if_false] at h1
        rcases mem_createFileAt fs e0.path n h1 with h2 | h2 | h2
        · exact Or.inl h2
        · obtain ⟨i, hi, hq⟩ := (ancestorsOf_mem e0.path.dropLast n.path).mp h2.2
          have hlen : e0.path.dropLast.length = e0.path.length - 1 := by
            simp [List.length_dropLast]
          have htake : e0.path.dropLast.take (i + 1) = e0.path.take (i + 1) := by
            rw [List.dropLast_eq_take, List.take_take]
            congr 1
            omega
          exact Or.inr (Or.inl ⟨h2.1, e0, by simp, i + 1, by omega,
            by omega, by rw [hq, htake]⟩)
        · subst h2
          exact Or.inr (Or.inr ⟨rfl, e0, by simp, hd', rfl⟩)
    · obtain ⟨h1k, e, he, k, hk0, hkl, hp⟩ := h1
      exact Or.inr (Or.inl ⟨h1k, e, by simp [he], k, hk0, hkl, hp⟩)
    · obtain ⟨h1k, e, he, hd, hp⟩ := h1
      exact Or.inr (Or.inr ⟨h1k, e, by simp [he], hd, hp⟩)

lemma extractLoop_no_cancel :
    ∀ (entries : List En) (i : Nat) (top : Option String) (fs : FS),
      extractLoop (fun _ => false) entries i top fs
        = ExtOutcome.done (extractFS entries fs) (extractTop entries top) := by
  intro entries
  induction entries with
  | nil => intro i top fs; rfl
  | cons e es' ih =>
    intro i top fs
    simp only [extractLoop, Bool.false_eq_true, if_false]
    exact ih (i + 1) (topUpdate top e) (entryApply fs e)

lemma extractTop_some_fixed :
    ∀ (es : List En) (t : String), extractTop es (some t) = some t := by
  intro es
  induction es with
  | nil => intro t; rfl
  | cons e es' ih =>
    intro t
    show extractTop es' (topUpdate (some t) e) = some t
    simp only [topUpdate]
    exact ih t

lemma extractTop_of_dir (w : String) :
    ∀ (es : List En), (∀ e ∈ es, e.path.head? = some w) → (∃ e ∈ es, e.isDir = true) →
      extractTop es none = some w := by
  intro es
  induction es with
  | nil =>
    intro _ h
    simp at h
  | cons e0 es' ih =>
    intro hh hex
    show extractTop es' (topUpdate none e0) = some w
    by_cases hd : e0.isDir = true
    · have : topUpdate none e0 = some w := by
        simp only [topUpdate, hd, if_true]
        exact hh e0 (by simp)
      rw [this]
      exact extractTop_some_fixed es' w
    · have hd' : e0.isDir = false := by
        cases hhh : e0.isDir
        · rfl
        · exact absurd hhh hd
      have : topUpdate none e0 = none := by
        simp [topUpdate, hd']
      rw [this]
      obtain ⟨e, he, hedir⟩ := hex
      rcases List.mem_cons.mp he with rfl | he'
      · rw [hedir] at hd'
        cases hd'
      · exact ih (fun e h => hh e (by simp [h])) ⟨e, he', hedir⟩

lemma extractFS_head (w : String) (es : List En)
    (hh : ∀ e ∈ es, e.path.head? = some w) :
    ∀ n ∈ extractFS es [], n.path.head? = some w := by
  intro n hn
  rcases mem_extractFS es [] n hn with h | h | h
  · simp at h
  · obtain ⟨-, e, he, k, hk0, hkl, hp⟩ := h
    have hhead := hh e he
    rw [hp]
    cases hep : e.path with
    | nil => rw [hep] at hhead; simp at hhead
    | cons x xs =>
      rw [hep] at hhead
      simp at hhead
      subst hhead
      cases k with
      | zero => omega
      | succ k' => simp [List.take]
  · obtain ⟨-, e, he, -, hp⟩ := h
    rw [hp]
    exact hh e he

lemma extractFS_second (w : String) (es : List En)
    (hs : ∀ e ∈ es, e.path.tail.head? ≠ some w) :
    ∀ n ∈ extractFS es [], n.path.tail.head? ≠ some w := by
  intro n hn
  have head_take : ∀ (l : List String) (m : Nat) (x : String),
      (l.take m).head? = some x → l.head? = some x := by
    intro l m x h
    cases l with
    | nil => simp at h
    | cons a t =>
      cases m with
      | zero => simp at h
      | succ m' => simpa using h
  rcases mem_extractFS es [] n hn with h | h | h
  · simp at h
  · obtain ⟨-, e, he, k, hk0, hkl, hp⟩ := h
    have hse := hs e he
    rw [hp]
    intro hcon
    apply hse
    cases hep : e.path with
    | nil =>
      rw [hep] at hcon
      simp at hcon
    | cons x xs =>
      rw [hep] at hcon
      cases k with
      | zero => omega
      | succ k' =>
        simp only [List.take, List.tail] at hcon
        simp only [List.tail]
        exact head_take xs k' w hcon
  · obtain ⟨-, e, he, -, hp⟩ := h
    rw [hp]
    exact hs e he

lemma extractFS_dirOnly_at_wrapper (w : String) (es : List En)
    (hw : ∀ e ∈ es, e.path = [w] → e.isDir = true) :
    ∀ n ∈ extractFS es [], n.path = [w] → n.kind = FKind.dir := by
  intro n hn hp
  rcases mem_extractFS es [] n hn with h | h | h
  · simp at h
  · exact h.1
  · obtain ⟨hk, e, he, hd, hpe⟩ := h
    have : e.path = [w] := by rw [← hpe, hp]
    have := hw e he this
    rw [this] at hd
    cases hd

lemma extractFS_isDirAt_wrapper (w : String) (es : List En)
    (hh : ∀ e ∈ es, e.path.head? = some w)
    (hw : ∀ e ∈ es, e.path = [w] → e.isDir = true)
    (hex : ∃ e ∈ es, e.isDir = true) :
    hasPath (extractFS es []) [w] = true ∧ isDirAt (extractFS es []) [w] = true := by
  obtain ⟨e, he, hedir⟩ := hex
  have hne : e.path ≠ [] := by
    intro hnil
    have := hh e he
    rw [hnil] at this
    simp at this
  have hanc : [w] ∈ ancestorsOf e.path := by
    rw [ancestorsOf_mem]
    refine ⟨0, by exact List.length_pos.mpr hne, ?_⟩
    cases hep : e.path with
    | nil => exact absurd hep hne
    | cons x xs =>
      have := hh e he
      rw [hep] at this
      simp at this
      subst this
      simp [List.take]
  have hcreated : [w] ∈ entryCreated e := by
    unfold entryCreated
    rw [hedir]
    simpa using hanc
  have hhas : hasPath (extractFS es []) [w] = true :=
    hasPath_extractFS_created es [] e [w] he hcreated
  refine ⟨hhas, ?_⟩
  rw [isDirAt_iff]
  obtain ⟨n, hn, hnp⟩ := (hasPath_iff _ _).mp hhas
  exact ⟨n, hn, hnp, extractFS_dirOnly_at_wrapper w es hw n hn hnp⟩

/-- Every strict ancestor of a node of the extracted tree is itself a node:
the extraction creates parent directories as it goes. -/
lemma extractFS_closed_under_ancestors (es : List En) :
    ∀ n ∈ extractFS es [], ∀ k, 0 < k → k < n.path.length →
      hasPath (extractFS es []) (n.path.take k) = true := by
  intro n hn k hk0 hkl
  rcases mem_extractFS es [] n hn with h | h | h
  · simp at h
  · obtain ⟨-, e, he, m, hm0, hml, hp⟩ := h
    have hplen : n.path.length = min m e.path.length := by
      rw [hp, List.length_take]
    have hkm : k < e.path.length := by omega
    have htt : n.path.take k = e.path.take k := by
      rw [hp, List.take_take]
      congr 1
      omega
    rw [htt]
    by_cases hd : e.isDir = true
    · apply hasPath_extractFS_created es [] e _ he
      unfold entryCreated
      rw [hd]
      simp only [if_true]
      rw [ancestorsOf_mem]
      exact ⟨k - 1, by omega, by congr 1; omega⟩
    · have hd' : e.isDir = false := by
        cases hhh : e.isDir
        · rfl
        · exact absurd hhh hd
      apply hasPath_extractFS_created es [] e _ he
      unfold entryCreated
      rw [hd']
      simp only [Bool.false_eq_true, if_false]
      apply List.mem_append.mpr
      left
      rw [ancestorsOf_mem]
      refine ⟨k - 1, ?_, ?_⟩
      · rw [List.length_dropLast]
        omega
      · rw [List.dropLast_eq_take, List.take_take]
        congr 1
        omega
  · obtain ⟨-, e, he, hd, hp⟩ := h
    have hkm : k < e.path.length := by rw [← hp]; exact hkl
    rw [hp]
    apply hasPath_extractFS_created es [] e _ he
    unfold entryCreated
    rw [hd]
    simp only [Bool.false_eq_true, if_false]
    apply List.mem_append.mpr
    left
    rw [ancestorsOf_mem]
    refine ⟨k - 1, ?_, ?_⟩
    · rw [List.length_dropLast]
      omega
    · rw [List.dropLast_eq_take, List.take_take]
      congr 1
      omega

/-! ### Facts about the flattening move -/

/-- The fold of `fs::rename` calls over a list of child names. -/
def renameFold (w : String) (cs : List String) (fs : FS) : FS :=
  cs.foldl (fun f c => renameTree f [w, c] [c]) fs

lemma moveChildrenUp_eq_renameFold (fs : FS) (d : String) :
    moveChildrenUp fs d = renameFold d (childNames fs d) fs := rfl

lemma mem_renameTree_untouched (fs : FS) (oldP newP : FsPath) (n : FNode)
    (hn : n ∈ fs) (h : leadsB oldP n.path = false) : n ∈ renameTree fs oldP newP := by
  unfold renameTree
  rw [List.mem_map]
  exact ⟨n, hn, by rw [h]; rfl⟩

lemma mem_renameTree_touched (fs : FS) (w c : String) (q : FsPath) (k : FKind)
    (hn : FNode.mk (w :: c :: q) k ∈ fs) :
    FNode.mk (c :: q) k ∈ renameTree fs [w, c] [c] := by
  unfold renameTree
  rw [List.mem_map]
  refine ⟨⟨w :: c :: q, k⟩, hn, ?_⟩
  have hl : leadsB [w, c] (w :: c :: q) = true := by
    simp [leadsB]
  rw [hl]
  simp

lemma mem_renameTree_inv (fs : FS) (oldP newP : FsPath) (n : FNode)
    (h : n ∈ renameTree fs oldP newP) :
    ∃ m ∈ fs, (leadsB oldP m.path = true ∧ n = ⟨newP ++ m.path.drop oldP.length, m.kind⟩)
      ∨ (leadsB oldP m.path = false ∧ n = m) := by
  unfold renameTree at h
  rw [List.mem_map] at h
  obtain ⟨m, hm, heq⟩ := h
  refine ⟨m, hm, ?_⟩
  by_cases hl : leadsB oldP m.path = true
  · rw [hl] at heq
    simp at heq
    exact Or.inl ⟨hl, heq.symm⟩
  · have hl' : leadsB oldP m.path = false := by
      cases hh : leadsB oldP m.path
      · rfl
      · exact absurd hh hl
    rw [hl'] at heq
    simp at heq
    exact Or.inr ⟨hl', heq.symm⟩

lemma renameFold_pres_nonW (w : String) :
    ∀ (cs : List String) (fs : FS) (n : FNode), n ∈ fs → n.path.head? ≠ some w →
      n ∈ renameFold w cs fs := by
  intro cs
  induction cs with
  | nil => intro fs n hn _; exact hn
  | cons c0 cs' ih =>
    intro fs n hn hh
    apply ih (renameTree fs [w, c0] [c0]) n _ hh
    apply mem_renameTree_untouched fs _ _ n hn
    cases hl : leadsB [w, c0] n.path
    · rfl
    · exfalso
      obtain ⟨q, hq⟩ := (leadsB_pair_iff w c0 n.path).mp hl
      rw [hq] at hh
      simp at hh

lemma renameFold_moves (w : String) :
    ∀ (cs : List String) (fs : FS) (c : String) (q : FsPath) (k : FKind),
      c ∈ cs → c ≠ w → FNode.mk (w :: c :: q) k ∈ fs →
      FNode.mk (c :: q) k ∈ renameFold w cs fs := by
  intro cs
  induction cs with
  | nil => intro fs c q k h; simp at h
  | cons c0 cs' ih =>
    intro fs c q k hmem hcw hn
    by_cases hc0 : c0 = c
    · subst hc0
      apply renameFold_pres_nonW w cs' (renameTree fs [w, c0] [c0]) ⟨c0 :: q, k⟩
        (mem_renameTree_touched fs w c0 q k hn)
      simp
      exact hcw
    · have hmem' : c ∈ cs' := by
        rcases List.mem_cons.mp hmem with rfl | hmem'
        · exact absurd rfl hc0
        · exact hmem'
      apply ih (renameTree fs [w, c0] [c0]) c q k hmem' hcw
      apply mem_renameTree_untouched fs _ _ _ hn
      cases hl : leadsB [w, c0] (FNode.mk (w :: c :: q) k).path
      · rfl
      · exfalso
        obtain ⟨q', hq'⟩ := (leadsB_pair_iff w c0 _).mp hl
        simp at hq'
        exact hc0 hq'.1.symm

lemma renameFold_no_new_w (w : String) :
    ∀ (cs : List String) (fs : FS) (n : FNode), (∀ c ∈ cs, c ≠ w) →
      n ∈ renameFold w cs fs → n.path.head? = some w → n ∈ fs := by
  intro cs
  induction cs with
  | nil => intro fs n _ hn _; exact hn
  | cons c0 cs' ih =>
    intro fs n hcs hn hh
    have hn1 : n ∈ renameTree fs [w, c0] [c0] :=
      ih (renameTree fs [w, c0] [c0]) n (fun c hc => hcs c (by simp [hc])) hn hh
    rcases mem_renameTree_inv fs [w, c0] [c0] n hn1 with ⟨m, hm, hcase⟩
    rcases hcase with ⟨hl, heq⟩ | ⟨-, heq⟩
    · exfalso
      rw [heq] at hh
      simp at hh
      exact hcs c0 (by simp) hh
    · rw [heq]
      exact hm

lemma renameTree_clears (w c : String) (fs : FS) (hcw : c ≠ w) :
    ∀ n ∈ renameTree fs [w, c] [c], leadsB [w, c] n.path = false := by
  intro n hn
  rcases mem_renameTree_inv fs [w, c] [c] n hn with ⟨m, _, hcase⟩
  cases hl : leadsB [w, c] n.path
  · rfl
  · exfalso
    obtain ⟨q, hq⟩ := (leadsB_pair_iff w c n.path).mp hl
    rcases hcase with ⟨-, heq⟩ | ⟨hm2, heq⟩
    · rw [heq] at hq
      simp at hq
      exact hcw hq.1
    · rw [heq] at hq
      rw [hq] at hm2
      have : leadsB [w, c] (w :: c :: q) = true := by simp [leadsB]
      rw [this] at hm2
      cases hm2

lemma renameFold_pres_clears (w c : String) :
    ∀ (cs : List String) (fs : FS), (∀ c' ∈ cs, c' ≠ w) →
      (∀ n ∈ fs, leadsB [w, c] n.path = false) →
      ∀ n ∈ renameFold w cs fs, leadsB [w, c] n.path = false := by
  intro cs
  induction cs with
  | nil => intro fs _ hfs n hn; exact hfs n hn
  | cons c0 cs' ih =>
    intro fs hcs hfs n hn
    apply ih (renameTree fs [w, c0] [c0]) (fun c' hc' => hcs c' (by simp [hc'])) _ n hn
    intro m hm
    rcases mem_renameTree_inv fs [w, c0] [c0] m hm with ⟨m0, hm0, hcase⟩
    rcases hcase with ⟨-, heq⟩ | ⟨-, heq⟩
    · cases hl : leadsB [w, c] m.path
      · rfl
      · exfalso
        obtain ⟨q, hq⟩ := (leadsB_pair_iff w c m.path).mp hl
        rw [heq] at hq
        simp at hq
        exact hcs c0 (by simp) hq.1
    · rw [heq]
      exact hfs m0 hm0

lemma renameFold_clears (w : String) :
    ∀ (cs : List String) (fs : FS) (c : String), c ∈ cs → (∀ c' ∈ cs, c' ≠ w) →
      ∀ n ∈ renameFold w cs fs, leadsB [w, c] n.path = false := by
  intro cs
  induction cs with
  | nil => intro fs c h; simp at h
  | cons c0 cs' ih =>
    intro fs c hmem hcs n hn
    by_cases hc0 : c0 = c
    · subst hc0
      exact renameFold_pres_clears w c0 cs' (renameTree fs [w, c0] [c0])
        (fun c' hc' => hcs c' (by simp [hc']))
        (renameTree_clears w c0 fs (hcs c0 (by simp))) n hn
    · have hmem' : c ∈ cs' := by
        rcases List.mem_cons.mp hmem with rfl | hmem'
        · exact absurd rfl hc0
        · exact hmem'
      exact ih (renameTree fs [w, c0] [c0]) c hmem'
        (fun c' hc' => hcs c' (by simp [hc'])) n hn

lemma removeDirStrict_ok (fs : FS) (w : String)
    (h : ∀ n ∈ fs, leadsB [w] n.path = true → n.path = [w]) :
    removeDirStrict fs [w] = Except.ok (fs.filter (fun n => n.path != [w])) := by
  unfold removeDirStrict
  have hguard : (fs.any (fun n => leadsB [w] n.path && n.path != [w])) = false := by
    rw [List.any_eq_false]
    intro n hn
    cases hl : leadsB [w] n.path
    · simp
    · have := h n hn hl
      simp [this]
  rw [hguard]
  simp

lemma childNames_of_node (fs : FS) (w c : String)
    (h : ∃ m ∈ fs, m.path = [w, c]) : c ∈ childNames fs w := by
  obtain ⟨m, hm, hp⟩ := h
  unfold childNames
  rw [List.mem_filterMap]
  refine ⟨m, hm, ?_⟩
  rw [hp]
  simp

lemma childNames_sound (fs : FS) (w c : String)
    (h : c ∈ childNames fs w) : ∃ m ∈ fs, m.path = [w, c] := by
  unfold childNames at h
  rw [List.mem_filterMap] at h
  obtain ⟨m, hm, hf⟩ := h
  refine ⟨m, hm, ?_⟩
  cases hp : m.path with
  | nil => rw [hp] at hf; simp at hf
  | cons a bs =>
    cases bs with
    | nil => rw [hp] at hf; simp at hf
    | cons b bs' =>
      cases bs' with
      | nil =>
        rw [hp] at hf
        simp at hf
        rw [hf.1, hf.2]
      | cons b2 bs2 => rw [hp] at hf; simp at hf

lemma childName_of_desc (w c : String) (q : FsPath) (fs : FS)
    (hclosed : ∀ n ∈ fs, ∀ k, 0 < k → k < n.path.length →
      hasPath fs (n.path.take k) = true)
    (hm : ∃ m ∈ fs, m.path = w :: c :: q) : c ∈ childNames fs w := by
  obtain ⟨m, hmm, hp⟩ := hm
  cases q with
  | nil => exact childNames_of_node fs w c ⟨m, hmm, hp⟩
  | cons x xs =>
    have hlen : 2 < m.path.length := by
      rw [hp]
      simp
    have := hclosed m hmm 2 (by omega) hlen
    have htake : m.path.take 2 = [w, c] := by
      rw [hp]
      rfl
    rw [htake] at this
    obtain ⟨m2, hm2, hp2⟩ := (hasPath_iff fs [w, c]).mp this
    exact childNames_of_node fs w c ⟨m2, hm2, hp2⟩

lemma hasPath_filter_of (fs : FS) (p bad : FsPath) (n : FNode)
    (hn : n ∈ fs) (hp : n.path = p) (hne : p ≠ bad) :
    hasPath (fs.filter (fun m => m.path != bad)) p = true := by
  rw [hasPath_iff]
  refine ⟨n, ?_, hp⟩
  rw [List.mem_filter]
  refine ⟨hn, ?_⟩
  rw [hp]
  simpa using hne

lemma hasPath_filter_self_false (fs : FS) (bad : FsPath) :
    hasPath (fs.filter (fun m => m.path != bad)) bad = false := by
  cases hh : hasPath (fs.filter (fun m => m.path != bad)) bad
  · rfl
  · exfalso
    obtain ⟨n, hn, hp⟩ := (hasPath_iff _ _).mp hh
    rw [List.mem_filter] at hn
    have := hn.2
    rw [hp] at this
    simp at this

lemma entryCreated_self_file (e : En) (h : e.isDir = false) : e.path ∈ entryCreated e := by
  unfold entryCreated
  rw [h]
  simp

/-- Counterexample to claim C4 as stated: a zip whose only entry is the
file `foo-1.0/bin/x` (no directory entries) has its whole payload inside
the single top-level directory `foo-1.0`, yet no wrapper is detected
(detection needs a directory entry), normalization does nothing, and
afterwards `target_dir/bin/x` does NOT exist while `target_dir/foo-1.0`
still does. -/
theorem c4_wrapper_flattening_counterexample :
    extractTop [En.mk ["foo-1.0", "bin", "x"] false] none = none
    ∧ extractLoop (fun _ => false) [En.mk ["foo-1.0", "bin", "x"] false] 0 none []
        = ExtOutcome.done (extractFS [En.mk ["foo-1.0", "bin", "x"] false] []) none
    ∧ normalizeTop (extractFS [En.mk ["foo-1.0", "bin", "x"] false] []) none
        = Except.ok (extractFS [En.mk ["foo-1.0", "bin", "x"] false] [])
    ∧ hasPath (extractFS [En.mk ["foo-1.0", "bin", "x"] false] []) ["foo-1.0", "bin", "x"] = true
    ∧ hasPath (extractFS [En.mk ["foo-1.0", "bin", "x"] false] []) ["foo-1.0"] = true
    ∧ hasPath (extractFS [En.mk ["foo-1.0", "bin", "x"] false] []) ["bin", "x"] = false :=
  ⟨rfl, rfl, rfl, rfl, rfl, rfl⟩

/-- Claim C4 as amended: for every archive whose payload lies entirely
inside the single top-level directory `w`, provided the archive carries at
least one explicit directory entry (only a directory entry triggers wrapper
detection) and no second-level name repeats the wrapper name (else the
rename/removal step fails), extraction with normalization moves the
wrapper's contents up one level: a payload file `w/inner` ends up at
`target_dir/inner` and `target_dir/w` no longer exists. -/
theorem c4_wrapper_flattening_amended :
    ∀ (w : String) (entries : List En) (inner : FsPath),
      (∀ e ∈ entries, e.path.head? = some w) →
      (∀ e ∈ entries, e.path = [w] → e.isDir = true) →
      (∃ e ∈ entries, e.isDir = true) →
      (∀ e ∈ entries, e.path.tail.head? ≠ some w) →
      En.mk (w :: inner) false ∈ entries →
      inner ≠ [] →
      ∃ fsFinal,
        extractLoop (fun _ => false) entries 0 none []
          = ExtOutcome.done (extractFS entries []) (some w)
        ∧ normalizeTop (extractFS entries []) (some w) = Except.ok fsFinal
        ∧ hasPath fsFinal inner = true
        ∧ hasPath fsFinal [w] = false := by
  intro w entries inner hHead hWOnly hDir hSecond hFile hInner
  have hTop : extractTop entries none = some w := extractTop_of_dir w entries hHead hDir
  have hLoop : extractLoop (fun _ => false) entries 0 none []
      = ExtOutcome.done (extractFS entries []) (some w) := by
    rw [extractLoop_no_cancel entries 0 none [], hTop]
  obtain ⟨hHas, hIsDir⟩ := extractFS_isDirAt_wrapper w entries hHead hWOnly hDir
  have hClosed := extractFS_closed_under_ancestors entries
  have hSecondFS := extractFS_second w entries hSecond
  have hcs : ∀ c ∈ childNames (extractFS entries []) w, c ≠ w := by
    intro c hc hcw
    obtain ⟨m, hm, hp⟩ := childNames_sound (extractFS entries []) w c hc
    apply hSecondFS m hm
    rw [hp, hcw]
    rfl
  obtain ⟨c, q, rfl⟩ : ∃ c q, inner = c :: q := by
    cases inner with
    | nil => exact absurd rfl hInner
    | cons c q => exact ⟨c, q, rfl⟩
  have hcw : c ≠ w := by
    have hsec := hSecond _ hFile
    intro he
    apply hsec
    simp [he]
  have hNodeW : hasPath (extractFS entries []) (w :: c :: q) = true := by
    apply hasPath_extractFS_created entries [] ⟨w :: c :: q, false⟩ _ hFile
    exact entryCreated_self_file _ rfl
  obtain ⟨m, hmE, hmp⟩ := (hasPath_iff (extractFS entries []) _).mp hNodeW
  rcases m with ⟨mp, mkind⟩
  simp only at hmp
  subst hmp
  have hcChild : c ∈ childNames (extractFS entries []) w :=
    childName_of_desc w c q (extractFS entries []) hClosed ⟨⟨w :: c :: q, mkind⟩, hmE, rfl⟩
  have hMoved : FNode.mk (c :: q) mkind ∈ moveChildrenUp (extractFS entries []) w := by
    rw [moveChildrenUp_eq_renameFold]
    exact renameFold_moves w (childNames (extractFS entries []) w) (extractFS entries [])
      c q mkind hcChild hcw hmE
  have hStrict : ∀ n ∈ moveChildrenUp (extractFS entries []) w,
      leadsB [w] n.path = true → n.path = [w] := by
    intro n hn hl
    obtain ⟨r, hr⟩ := (leadsB_single_iff w n.path).mp hl
    cases r with
    | nil => exact hr
    | cons c' q' =>
      exfalso
      rw [moveChildrenUp_eq_renameFold] at hn
      have hnE : n ∈ extractFS entries [] :=
        renameFold_no_new_w w (childNames (extractFS entries []) w) (extractFS entries [])
          n hcs hn (by rw [hr]; rfl)
      have hc'Child : c' ∈ childNames (extractFS entries []) w :=
        childName_of_desc w c' q' (extractFS entries []) hClosed ⟨n, hnE, hr⟩
      have hclear := renameFold_clears w (childNames (extractFS entries []) w)
        (extractFS entries []) c' hc'Child hcs n hn
      rw [hr] at hclear
      have hld : leadsB [w, c'] (w :: c' :: q') = true := by simp [leadsB]
      rw [hld] at hclear
      cases hclear
  have hNorm : normalizeTop (extractFS entries []) (some w)
      = Except.ok ((moveChildrenUp (extractFS entries []) w).filter
          (fun n => n.path != [w])) := by
    have hdef : normalizeTop (extractFS entries []) (some w)
        = if hasPath (extractFS entries []) [w] && isDirAt (extractFS entries []) [w] then
            removeDirStrict (moveChildrenUp (extractFS entries []) w) [w]
          else Except.ok (extractFS entries []) := rfl
    rw [hdef, hHas, hIsDir]
    simp only [Bool.and_self, if_true]
    exact removeDirStrict_ok (moveChildrenUp (extractFS entries []) w) w hStrict
  refine ⟨_, hLoop, hNorm, ?_, ?_⟩
  · apply hasPath_filter_of _ _ _ ⟨c :: q, mkind⟩ hMoved rfl
    intro he
    injection he with h1 h2
    exact hcw h1
  · exact hasPath_filter_self_false _ _

/-- Witness for amended C4: the specification's example archive, with the
directory entries a real zip carries. -/
theorem c4_wrapper_flattening_amended_witness :
    ∃ fsFinal,
      extractLoop (fun _ => false)
          [En.mk ["foo-1.0"] true, En.mk ["foo-1.0", "bin"] true,
           En.mk ["foo-1.0", "bin", "x"] false] 0 none []
        = ExtOutcome.done
            (extractFS
              [En.mk ["foo-1.0"] true, En.mk ["foo-1.0", "bin"] true,
               En.mk ["foo-1.0", "bin", "x"] false] []) (some "foo-1.0")
      ∧ normalizeTop
          (extractFS
            [En.mk ["foo-1.0"] true, En.mk ["foo-1.0", "bin"] true,
             En.mk ["foo-1.0", "bin", "x"] false] []) (some "foo-1.0")
        = Except.ok fsFinal
      ∧ hasPath fsFinal ["bin", "x"] = true
      ∧ hasPath fsFinal ["foo-1.0"] = false :=
  c4_wrapper_flattening_amended "foo-1.0"
    [En.mk ["foo-1.0"] true, En.mk ["foo-1.0", "bin"] true,
     En.mk ["foo-1.0", "bin", "x"] false] ["bin", "x"]
    (by decide) (by decide) (by decide) (by decide) (by decide) (by decide)

/-! ### Extraction output paths and `..` components
(main.rs lines 756-766 and 807-817: `target.join(entry_name)` verbatim) -/

/-- Lexical resolution of `.` and `..` components against a stack of
components already walked; this is what the operating system's path walk
does to the joined output path (absent symlinks). -/
def resolveDotsAux : List String → List String → List String
  | acc, [] => acc.reverse
  | acc, cmp :: rest =>
    if cmp == ".." then resolveDotsAux acc.tail rest
    else if cmp == "." then resolveDotsAux acc rest
    else resolveDotsAux (cmp :: acc) rest

/-- Lexical resolution of a whole path, from the filesystem root. -/
def resolveDots (p : List String) : List String := resolveDotsAux [] p

lemma leadsB_length : ∀ (a b : FsPath), leadsB a b = true → a.length ≤ b.length := by
  intro a
  induction a with
  | nil => intro b _; simp
  | cons x xs ih =>
    intro b h
    cases b with
    | nil => simp [leadsB] at h
    | cons y ys =>
      simp only [leadsB, Bool.and_eq_true] at h
      have := ih ys h.2
      simp
      omega

lemma resolveDotsAux_plain :
    ∀ (l : List String) (acc r : List String), (∀ x ∈ l, x ≠ ".." ∧ x ≠ ".") →
      resolveDotsAux acc (l ++ r) = resolveDotsAux (l.reverse ++ acc) r := by
  intro l
  induction l with
  | nil => intro acc r _; simp
  | cons x l' ih =>
    intro acc r hplain
    have hx := hplain x (by simp)
    have hx1 : (x == "..") = false := by simpa using hx.1
    have hx2 : (x == ".") = false := by simpa using hx.2
    show resolveDotsAux acc (x :: (l' ++ r)) = _
    rw [show resolveDotsAux acc (x :: (l' ++ r))
        = resolveDotsAux (x :: acc) (l' ++ r) by simp [resolveDotsAux, hx1, hx2]]
    rw [ih (x :: acc) r (fun y hy => hplain y (by simp [hy]))]
    congr 1
    simp

lemma resolveDots_two_up (target : FsPath)
    (hplain : ∀ x ∈ target, x ≠ ".." ∧ x ≠ ".") :
    resolveDots (target ++ ["..", "..", "evil"])
      = (target.reverse.tail.tail).reverse ++ ["evil"] := by
  unfold resolveDots
  rw [resolveDotsAux_plain target [] ["..", "..", "evil"] hplain]
  simp only [List.append_nil]
  show resolveDotsAux target.reverse.tail ["..", "evil"] = _
  show resolveDotsAux target.reverse.tail.tail ["evil"] = _
  show resolveDotsAux ("evil" :: target.reverse.tail.tail) [] = _
  show ("evil" :: target.reverse.tail.tail).reverse = _
  simp

/-- Counterexample to claim C10 as stated: the entry `a/../b` contains a
`..` component, yet its computed output path `target/a/../b` resolves to
`target/b` — inside the target directory, not outside it. -/
theorem c10_extraction_path_traversal_counterexample :
    (".." ∈ (["a", "..", "b"] : List String))
    ∧ resolveDots (["home", "user", "jdkm", "python_versions", "python-3"] ++ ["a", "..", "b"])
        = ["home", "user", "jdkm", "python_versions", "python-3", "b"]
    ∧ leadsB ["home", "user", "jdkm", "python_versions", "python-3"]
        (resolveDots
          (["home", "user", "jdkm", "python_versions", "python-3"] ++ ["a", "..", "b"]))
        = true := by
  refine ⟨by decide, by decide, by decide⟩

/-- Claim C10 as amended: every archive entry is written at `target_dir`
joined with its stored path verbatim, with parent directories created as
needed, and no check confines the result to `target_dir`; consequently
entries whose stored names begin with `..` components escape the target
(for any install path at depth at least 2, `../../evil` resolves outside
it), although an entry containing `..` internally, such as `a/../b`, may
still resolve inside. -/
theorem c10_extraction_path_traversal_amended :
    (∀ (entries : List En) (e : En), e ∈ entries → e.isDir = false →
      hasPath (extractFS entries []) e.path = true)
    ∧ (∀ (entries : List En), ∀ n ∈ extractFS entries [], ∀ k, 0 < k → k < n.path.length →
      hasPath (extractFS entries []) (n.path.take k) = true)
    ∧ (∀ (target : FsPath), 2 ≤ target.length → (∀ x ∈ target, x ≠ ".." ∧ x ≠ ".") →
      leadsB target (resolveDots (target ++ ["..", "..", "evil"])) = false) := by
  refine ⟨?_, ?_, ?_⟩
  · intro entries e he hf
    rcases e with ⟨p, d⟩
    simp only at hf
    subst hf
    exact hasPath_extractFS_created entries [] ⟨p, false⟩ p he
      (entryCreated_self_file ⟨p, false⟩ rfl)
  · exact extractFS_closed_under_ancestors
  · intro target hlen hplain
    rw [resolveDots_two_up target hplain]
    cases hl : leadsB target (target.reverse.tail.tail.reverse ++ ["evil"])
    · rfl
    · exfalso
      have hle := leadsB_length _ _ hl
      have h1 : target.reverse.tail.tail.length = target.length - 2 := by
        simp [List.length_tail]
        omega
      rw [List.length_append, List.length_reverse, h1] at hle
      simp at hle
      omega

/-- Witness for amended C10: a concrete install path of depth 2 is escaped
by `../../evil`. -/
theorem c10_extraction_path_traversal_amended_witness :
    leadsB ["home", "jdkm"]
      (resolveDots (["home", "jdkm"] ++ ["..", "..", "evil"])) = false :=
  c10_extraction_path_traversal_amended.2.2 ["home", "jdkm"] (by decide) (by decide)

/-! ### Python package-manager bootstrap and library installation
(main.rs lines 1021-1206) -/

/-- Outcome of one requested library: whether the install subcommand
succeeded and, if so, what version `pip show` reported. -/
structure LibEv where
  spec : List Char
  installOk : Bool
  shownVersion : List Char
deriving DecidableEq

/-- Failures of the Python package step. -/
inductive PyErr
  | pipBootstrapFailed
  | libInstallFailed (spec : List Char)
  | libIncompatible (spec installed : List Char)
deriving DecidableEq

/-- Result of the package step: the specifiers attempted, in order, and the
terminal outcome. -/
structure PyPhaseResult where
  attempted : List (List Char)
  outcome : Except PyErr Unit

/-- The per-library loop (main.rs lines 1124-1204): install; on failure
abort with the specifier in the error; on success check the reported
version against the specifier with `is_version_compatible`; incompatibility
aborts, otherwise continue. -/
def pyLibsLoop : List LibEv → List (List Char) → PyPhaseResult
  | [], acc => ⟨acc.reverse, Except.ok ()⟩
  | l :: rest, acc =>
    if l.installOk then
      if is_version_compatible l.shownVersion l.spec then
        pyLibsLoop rest (l.spec :: acc)
      else ⟨(l.spec :: acc).reverse, Except.error (PyErr.libIncompatible l.spec l.shownVersion)⟩
    else ⟨(l.spec :: acc).reverse, Except.error (PyErr.libInstallFailed l.spec)⟩

/-- The bootstrap-then-install phase (main.rs lines 1036-1113): on Windows
a failed `get-pip.py` run aborts the whole step before any library is
attempted; on other systems a failed `ensurepip` run is only logged and the
library loop runs regardless. -/
def pythonPackagesPhase (isWindows bootstrapOk : Bool) (libs : List LibEv) : PyPhaseResult :=
  if isWindows && !bootstrapOk then ⟨[], Except.error PyErr.pipBootstrapFailed⟩
  else pyLibsLoop libs []

lemma pyLibsLoop_append_fail :
    ∀ (pre : List LibEv) (acc : List (List Char)) (l : LibEv) (rest : List LibEv),
      (∀ p ∈ pre, p.installOk = true ∧ is_version_compatible p.shownVersion p.spec = true) →
      l.installOk = false →
      pyLibsLoop (pre ++ l :: rest) acc
        = ⟨acc.reverse ++ pre.map LibEv.spec ++ [l.spec],
           Except.error (PyErr.libInstallFailed l.spec)⟩ := by
  intro pre
  induction pre with
  | nil =>
    intro acc l rest _ hfail
    simp only [List.nil_append]
    show pyLibsLoop (l :: rest) acc = _
    rw [show pyLibsLoop (l :: rest) acc
        = ⟨(l.spec :: acc).reverse, Except.error (PyErr.libInstallFailed l.spec)⟩ by
      simp [pyLibsLoop, hfail]]
    simp
  | cons p pre' ih =>
    intro acc l rest hok hfail
    have hp := hok p (by simp)
    show pyLibsLoop (p :: (pre' ++ l :: rest)) acc = _
    rw [show pyLibsLoop (p :: (pre' ++ l :: rest)) acc
        = pyLibsLoop (pre' ++ l :: rest) (p.spec :: acc) by
      simp [pyLibsLoop, hp.1, hp.2]]
    rw [ih (p.spec :: acc) l rest (fun x hx => hok x (by simp [hx])) hfail]
    simp

/-- Claim C5: the Python package step's failure policy is asymmetric — a
Windows bootstrap failure aborts the run before any library is attempted,
a non-Windows bootstrap failure changes nothing about the rest of the run
(the library installs are attempted exactly as if the bootstrap had
succeeded), and a failed install subcommand always aborts the run with that
package's specifier in the error. -/
theorem c5_python_package_failure_policy :
    (∀ libs, pythonPackagesPhase true false libs
      = ⟨[], Except.error PyErr.pipBootstrapFailed⟩)
    ∧ (∀ bootstrapOk libs, pythonPackagesPhase false bootstrapOk libs
      = pythonPackagesPhase false true libs)
    ∧ (∀ (isWindows bootstrapOk : Bool) (pre : List LibEv) (l : LibEv) (rest : List LibEv),
      (isWindows = true → bootstrapOk = true) →
      (∀ p ∈ pre, p.installOk = true ∧ is_version_compatible p.shownVersion p.spec = true) →
      l.installOk = false →
      pythonPackagesPhase isWindows bootstrapOk (pre ++ l :: rest)
        = ⟨pre.map LibEv.spec ++ [l.spec],
           Except.error (PyErr.libInstallFailed l.spec)⟩) := by
  refine ⟨fun libs => rfl, fun bootstrapOk libs => rfl, ?_⟩
  intro isWindows bootstrapOk pre l rest hwb hok hfail
  have hguard : (isWindows && !bootstrapOk) = false := by
    cases hw : isWindows
    · rfl
    · rw [hwb hw]
      rfl
  unfold pythonPackagesPhase
  rw [hguard]
  simp only [Bool.false_eq_true, if_false]
  rw [pyLibsLoop_append_fail pre [] l rest hok hfail]
  simp

/-- Witness for C5: a concrete failing second library aborts with its
name, after one successful install. -/
theorem c5_python_package_failure_policy_witness :
    pythonPackagesPhase false false
        [⟨"numpy>=1.20.0".data, true, "1.26.0".data⟩, ⟨"pandas".data, false, [] ⟩]
      = ⟨["numpy>=1.20.0".data, "pandas".data],
         Except.error (PyErr.libInstallFailed "pandas".data)⟩ := by
  have h := c5_python_package_failure_policy.2.2 false false
    [⟨"numpy>=1.20.0".data, true, "1.26.0".data⟩] ⟨"pandas".data, false, []⟩ []
    (fun hc => by cases hc) (by decide) rfl
  simpa using h

/-! ### Front-end event model: cancellation flag and per-run log
(main.rs lines 1249-1260 state creation, 1429-1477 Install click and run
completion, 1604-1613 cancel confirmation) -/

/-- One spawned installation run: the token (by allocation identity) its
thread polls, and whether the thread has finished. -/
structure RunInfo where
  tokenId : Nat
  finished : Bool
deriving DecidableEq

/-- The per-vendor front-end state the installer logic touches:
`is_installing`, the shared `cancel_requested` flag (its current value and
the allocation identity of the `AtomicBool` held), the number of tokens
ever allocated (one, at state creation — `LanguageState::default`), the
spawned runs, and the shared log. -/
structure UiState where
  installing : Bool
  flagValue : Bool
  heldTokenId : Nat
  tokensAllocated : Nat
  runs : List RunInfo
  log : List Char
deriving DecidableEq

/-- State after `LanguageState::default()` (main.rs lines 1249-1260): one
token allocated, flag false, empty log, no runs. -/
def initUiState : UiState := ⟨false, false, 0, 1, [], []⟩

/-- Events the state reacts to. -/
inductive UiEvent
  | installClick
  | cancelConfirm
  | bgAppend (txt : List Char)
  | bgFinish (runIdx : Nat)
deriving DecidableEq

/-- One front-end step (guards model button enabledness):
`installClick` (main.rs lines 1429-1447) requires `!is_installing`, clears
the log, stores `false` on the SAME token (no new allocation), and spawns a
run holding a clone of that token; `cancelConfirm` (lines 1604-1613)
requires `is_installing`, stores `true`, sets `is_installing := false` and
clears the log; `bgAppend` is any in-flight thread appending to the log;
`bgFinish i` is run i's thread completing (line 1462). -/
def uiStep (s : UiState) (e : UiEvent) : UiState :=
  match e with
  | UiEvent.installClick =>
    if s.installing then s
    else
      { s with
        log := []
        installing := true
        flagValue := false
        runs := s.runs ++ [⟨s.heldTokenId, false⟩] }
  | UiEvent.cancelConfirm =>
    if s.installing then { s with flagValue := true, installing := false, log := [] }
    else s
  | UiEvent.bgAppend txt =>
    if s.runs.any (fun r => !r.finished) then { s with log := s.log ++ txt } else s
  | UiEvent.bgFinish i =>
    match s.runs[i]? with
    | some r =>
      if r.finished then s
      else { s with installing := false, runs := s.runs.set i ⟨r.tokenId, true⟩ }
    | none => s

/-- Counterexample to claim C6 as stated: after Install, a confirmed
cancellation, and a second Install — all while the first run's thread is
still alive — the flag has been reset true→false with the first run still
in flight, both in-flight runs share the single token allocated at state
creation, and no fresh token was ever created. -/
theorem c6_cancellation_token_counterexample :
    (List.foldl uiStep initUiState [UiEvent.installClick, UiEvent.cancelConfirm]).flagValue = true
    ∧ (List.foldl uiStep initUiState [UiEvent.installClick, UiEvent.cancelConfirm]).runs
        = [⟨0, false⟩]
    ∧ (List.foldl uiStep initUiState
        [UiEvent.installClick, UiEvent.cancelConfirm, UiEvent.installClick]).flagValue = false
    ∧ (List.foldl uiStep initUiState
        [UiEvent.installClick, UiEvent.cancelConfirm, UiEvent.installClick]).runs
        = [⟨0, false⟩, ⟨0, false⟩]
    ∧ (List.foldl uiStep initUiState
        [UiEvent.installClick, UiEvent.cancelConfirm, UiEvent.installClick]).tokensAllocated
        = 1 := by
  refine ⟨rfl, rfl, rfl, rfl, rfl⟩

lemma uiStep_flag_stays_true (s : UiState) (e : UiEvent)
    (hne : e ≠ UiEvent.installClick) (hf : s.flagValue = true) :
    (uiStep s e).flagValue = true := by
  cases e with
  | installClick => exact absurd rfl hne
  | cancelConfirm =>
    cases h : s.installing <;> simp [uiStep, h, hf]
  | bgAppend txt =>
    cases h : s.runs.any (fun r => !r.finished) <;> simp [uiStep, h, hf]
  | bgFinish i =>
    cases hg : s.runs[i]? with
    | none => simp [uiStep, hg, hf]
    | some r =>
      cases h : r.finished <;> simp [uiStep, hg, h, hf]

/-- Claim C6 as amended: the flag is one boolean per vendor, allocated once
at state creation and reused across runs — no step allocates a token or
swaps the held one; the only transition to `true` is a confirmed
cancellation, the only transition back to `false` is the Install click that
starts the next run; hence within any span without an Install click the
flag is monotone (set at most once); and the flag is read at every
download-chunk and archive-entry boundary, where an observed `true` aborts
at once. -/
theorem c6_cancellation_token_amended :
    (∀ s e, (uiStep s e).heldTokenId = s.heldTokenId
      ∧ (uiStep s e).tokensAllocated = s.tokensAllocated)
    ∧ (∀ s e, (uiStep s e).flagValue = true →
        s.flagValue = true ∨ e = UiEvent.cancelConfirm)
    ∧ (∀ s e, (uiStep s e).flagValue = false →
        s.flagValue = false ∨ e = UiEvent.installClick)
    ∧ (∀ s (es : List UiEvent), UiEvent.installClick ∉ es → s.flagValue = true →
        (List.foldl uiStep s es).flagValue = true)
    ∧ (∀ cancel evs i buf, cancel i = true →
        downloadLoop cancel evs i buf = DlOutcome.cancelled)
    ∧ (∀ cancel e rest i top fs, cancel i = true →
        extractLoop cancel (e :: rest) i top fs = ExtOutcome.cancelled fs) := by
  refine ⟨?_, ?_, ?_, ?_, downloadLoop_cancel_now, extractLoop_cancel_now⟩
  · intro s e
    cases e with
    | installClick => cases h : s.installing <;> simp [uiStep, h]
    | cancelConfirm => cases h : s.installing <;> simp [uiStep, h]
    | bgAppend txt =>
      cases h : s.runs.any (fun r => !r.finished) <;> simp [uiStep, h]
    | bgFinish i =>
      cases hg : s.runs[i]? with
      | none => simp [uiStep, hg]
      | some r => cases h : r.finished <;> simp [uiStep, hg, h]
  · intro s e h
    cases e with
    | installClick =>
      cases hi : s.installing
      · rw [show (uiStep s UiEvent.installClick).flagValue = false by
            simp [uiStep, hi]] at h
        cases h
      · rw [show uiStep s UiEvent.installClick = s by simp [uiStep, hi]] at h
        exact Or.inl h
    | cancelConfirm => exact Or.inr rfl
    | bgAppend txt =>
      cases hi : s.runs.any (fun r => !r.finished) <;>
        · rw [show (uiStep s (UiEvent.bgAppend txt)).flagValue = s.flagValue by
            simp [uiStep, hi]] at h
          exact Or.inl h
    | bgFinish i =>
      cases hg : s.runs[i]? with
      | none =>
        rw [show (uiStep s (UiEvent.bgFinish i)).flagValue = s.flagValue by
          simp [uiStep, hg]] at h
        exact Or.inl h
      | some r =>
        cases hf : r.finished <;>
          · rw [show (uiStep s (UiEvent.bgFinish i)).flagValue = s.flagValue by
              simp [uiStep, hg, hf]] at h
            exact Or.inl h
  · intro s e h
    cases e with
    | installClick => exact Or.inr rfl
    | cancelConfirm =>
      cases hi : s.installing
      · rw [show uiStep s UiEvent.cancelConfirm = s by simp [uiStep, hi]] at h
        exact Or.inl h
      · rw [show uiStep s UiEvent.cancelConfirm
            = { s with flagValue := true, installing := false, log := [] } by
          simp [uiStep, hi]] at h
        simp at h
    | bgAppend txt =>
      cases hi : s.runs.any (fun r => !r.finished) <;>
        · rw [show (uiStep s (UiEvent.bgAppend txt)).flagValue = s.flagValue by
            simp [uiStep, hi]] at h
          exact Or.inl h
    | bgFinish i =>
      cases hg : s.runs[i]? with
      | none =>
        rw [show (uiStep s (UiEvent.bgFinish i)).flagValue = s.flagValue by
          simp [uiStep, hg]] at h
        exact Or.inl h
      | some r =>
        cases hf : r.finished <;>
          · rw [show (uiStep s (UiEvent.bgFinish i)).flagValue = s.flagValue by
              simp [uiStep, hg, hf]] at h
            exact Or.inl h
  · intro s es
    induction es generalizing s with
    | nil => intro _ hf; exact hf
    | cons e es' ih =>
      intro hnotin hf
      have hne : e ≠ UiEvent.installClick := by
        intro he
        exact hnotin (by simp [he])
      have hnotin' : UiEvent.installClick ∉ es' := by
        intro hmem
        exact hnotin (by simp [hmem])
      exact ih (uiStep s e) hnotin' (uiStep_flag_stays_true s e hne hf)

/-- Witness for amended C6: the flag, once set by the cancel confirmation,
stays set across background events of the still-running thread. -/
theorem c6_cancellation_token_amended_witness :
    (List.foldl uiStep
      (List.foldl uiStep initUiState [UiEvent.installClick, UiEvent.cancelConfirm])
      [UiEvent.bgAppend "Download progress: 10.00%".data, UiEvent.bgFinish 0]).flagValue
      = true :=
  c6_cancellation_token_amended.2.2.2.1
    (List.foldl uiStep initUiState [UiEvent.installClick, UiEvent.cancelConfirm])
    [UiEvent.bgAppend "Download progress: 10.00%".data, UiEvent.bgFinish 0]
    (by decide) rfl

/-- Counterexample to claim C7: with a run in flight and text in the log,
confirming cancellation clears the log (main.rs line 1609) while the run is
still in flight — requesting cancellation does erase the log accumulated so
far. -/
theorem c7_log_append_only_counterexample :
    (List.foldl uiStep initUiState
        [UiEvent.installClick, UiEvent.bgAppend "Downloading...".data]).log
      = "Downloading...".data
    ∧ (List.foldl uiStep initUiState
        [UiEvent.installClick, UiEvent.bgAppend "Downloading...".data]).runs
      = [⟨0, false⟩]
    ∧ (List.foldl uiStep initUiState
        [UiEvent.installClick, UiEvent.bgAppend "Downloading...".data,
         UiEvent.cancelConfirm]).log = []
    ∧ (List.foldl uiStep initUiState
        [UiEvent.installClick, UiEvent.bgAppend "Downloading...".data,
         UiEvent.cancelConfirm]).runs = [⟨0, false⟩] :=
  ⟨rfl, rfl, rfl, rfl⟩

/-- Claim C7 as amended: during a run every operation other than an Install
click and a cancel confirmation only appends to the log; the log is cleared
exactly by the user's explicit restart (Install click) and by the user's
confirmed cancellation — so cancelling an in-flight run does erase the log
accumulated so far (the still-running thread may append to the cleared
log afterwards). -/
theorem c7_log_append_only_amended :
    (∀ s e, e ≠ UiEvent.installClick → e ≠ UiEvent.cancelConfirm →
      ∃ t, (uiStep s e).log = s.log ++ t)
    ∧ (∀ s, s.installing = true → (uiStep s UiEvent.cancelConfirm).log = [])
    ∧ (∀ s, s.installing = false → (uiStep s UiEvent.installClick).log = []) := by
  refine ⟨?_, ?_, ?_⟩
  · intro s e hni hnc
    cases e with
    | installClick => exact absurd rfl hni
    | cancelConfirm => exact absurd rfl hnc
    | bgAppend txt =>
      cases hi : s.runs.any (fun r => !r.finished)
      · exact ⟨[], by simp [uiStep, hi]⟩
      · exact ⟨txt, by simp [uiStep, hi]⟩
    | bgFinish i =>
      cases hg : s.runs[i]? with
      | none => exact ⟨[], by simp [uiStep, hg]⟩
      | some r =>
        cases hf : r.finished
        · exact ⟨[], by simp [uiStep, hg, hf]⟩
        · exact ⟨[], by simp [uiStep, hg, hf]⟩
  · intro s hi
    simp [uiStep, hi]
  · intro s hi
    simp [uiStep, hi]

/-- Witness for amended C7: a background append while a run is in flight
extends the log. -/
theorem c7_log_append_only_amended_witness :
    ∃ t, (uiStep (List.foldl uiStep initUiState [UiEvent.installClick])
        (UiEvent.bgAppend "Extraction complete.".data)).log
      = (List.foldl uiStep initUiState [UiEvent.installClick]).log ++ t :=
  c7_log_append_only_amended.1
    (List.foldl uiStep initUiState [UiEvent.installClick])
    (UiEvent.bgAppend "Extraction complete.".data)
    (by decide) (by decide)
